import Mathlib

set_option maxHeartbeats 1000000
set_option maxRecDepth 100000

/- Shallow embedding of the gedcom 5.5 parser library (gedcom/__init__.py).
   Python strings are modelled as lists of unicode characters. -/

/-- One Gedcom element, mirroring class Element: level, pointer, tag, value,
line terminator (crlf) and the ordered list of children.  The parent
back-reference is represented explicitly in the tree-builder model (PState,
below) and is irrelevant to the multi-line codec. -/
structure Element where
  level : Int
  pointer : List Char
  tag : List Char
  value : List Char
  crlf : List Char
  children : List Element

/-- Python str(level): decimal digits of the level. -/
def intDigits (i : Int) : List Char := (toString i).data

/-- Element.__unicode__ without the terminating crlf: level, optional
pointer preceded by a space, a space and the tag, and the value preceded
by a space when non-empty. -/
def serializeBody (e : Element) : List Char :=
  intDigits e.level
    ++ (if e.pointer = [] then [] else ' ' :: e.pointer)
    ++ ' ' :: e.tag
    ++ (if e.value = [] then [] else ' ' :: e.value)

/-- Element.__unicode__: the empty string for the virtual root
(level < 0), otherwise the serialized line including the terminator. -/
def serializeLine (e : Element) : List Char :=
  if e.level < 0 then [] else serializeBody e ++ e.crlf

/-- Element.__avail_chars: 255 minus the length of the current
serialization, clamped at 0. -/
def availChars (e : Element) : Nat :=
  let n := (serializeLine e).length
  if n > 255 then 0 else 255 - n

/-- The backward while loop of Element.__line_length: number of
consecutive spaces at the head of a list (the reversed candidate
line prefix). -/
def spaceRun : List Char → Nat
  | [] => 0
  | c :: r => if c = ' ' then spaceRun r + 1 else 0

/-- Element.__line_length as a pure function of the available budget and
the string: when the string fits, its full length; otherwise back off over
the spaces immediately preceding the candidate split point, unless the
whole candidate prefix consists of spaces, in which case split exactly at
the budget. -/
def lineLengthRaw (avail : Nat) (s : List Char) : Nat :=
  if s.length ≤ avail then s.length
  else
    let spaces := spaceRun (s.take avail).reverse
    if spaces = avail then avail else avail - spaces

/-- Element.__line_length (the method reads only the budget of self and the
argument string). -/
def lineLength (e : Element) (s : List Char) : Nat :=
  lineLengthRaw (availChars e) s

/-- Element.new_child before any value is assigned: one level deeper,
no pointer, empty value, inherited terminator. -/
def newChildElem (e : Element) (tg : List Char) : Element :=
  ⟨e.level + 1, [], tg, [], e.crlf, []⟩

/-- The values of the CONC children emitted by the loop in
Element.__add_concatenation.  All such children share one budget since
they are identical before their value is assigned.  The fuel argument
makes the loop total: Python diverges when the budget is 0 and the string
is non-empty (the index never advances), and the fuel cuts that case off;
every theorem below assumes a positive budget, where fuel = length of the
string is exact. -/
def concChunks (avail : Nat) : Nat → List Char → List (List Char)
  | _, [] => []
  | 0, _ :: _ => []
  | fuel + 1, c :: rest =>
    let n := lineLengthRaw avail (c :: rest)
    (c :: rest).take n :: concChunks avail fuel ((c :: rest).drop n)

/-- Element.__add_concatenation: append one bounded CONC child per chunk. -/
def addConcatenation (e : Element) (s : List Char) : Element :=
  let c0 := newChildElem e "CONC".data
  let avail := availChars c0
  { e with children := e.children ++
      (concChunks avail s.length s).map (fun v => { c0 with value := v }) }

/-- Tags removed (and re-emitted) by set_multi_line_value. -/
def isCodecTag (tg : List Char) : Bool :=
  tg == "CONC".data || tg == "CONT".data

/-- Characters at which Python str.splitlines breaks. -/
def isLineBreak (c : Char) : Bool :=
  c == '\n' || c == '\r' || c == '\x0b' || c == '\x0c' ||
  c == '\x1c' || c == '\x1d' || c == '\x1e' || c == '\x85' ||
  c == '\u2028' || c == '\u2029'

/-- Python str.splitlines, one character at a time: the accumulator holds
the reversed current line, a break character ends the current line, and a
"\n" directly after a "\r" is swallowed (prevCR records that the previous
character was a line-closing "\r").  A final unterminated line is kept
while a terminating break adds no empty last line. -/
def splitlinesGo : Bool → List Char → List Char → List (List Char)
  | _, acc, [] => if acc.isEmpty then [] else [acc.reverse]
  | prevCR, acc, c :: rest =>
    if prevCR && c == '\n' then splitlinesGo false acc rest
    else if isLineBreak c then acc.reverse :: splitlinesGo (c == '\r') [] rest
    else splitlinesGo false (c :: acc) rest

/-- Python str.splitlines. -/
def splitlines (s : List Char) : List (List Char) := splitlinesGo false [] s

/-- One iteration of the loop over the remaining logical lines in
set_multi_line_value: a bounded CONT child followed by CONC children for
the overflow. -/
def addContLine (e : Element) (li : List Char) : Element :=
  let c := newChildElem e "CONT".data
  let n := lineLength c li
  let e2 := { e with children := e.children ++ [{ c with value := li.take n }] }
  addConcatenation e2 (li.drop n)

/-- Element.set_multi_line_value: clear the value, drop existing CONC/CONT
children, then store the first logical line (bounded) on the element itself
with CONC children for its overflow, and each further logical line as a
bounded CONT child with CONC children for its overflow. -/
def setMultiLineValue (e : Element) (v : List Char) : Element :=
  let e0 : Element :=
    { e with value := [],
             children := e.children.filter (fun c => !(isCodecTag c.tag)) }
  match splitlines v with
  | [] => e0
  | l0 :: rest =>
    let n0 := lineLength e0 l0
    let e1 := { e0 with value := l0.take n0 }
    let e2 := addConcatenation e1 (l0.drop n0)
    rest.foldl addContLine e2

/-- One step of the loop in Element.multi_line_value: CONC appends the
child value directly, CONT appends the last seen terminator and then the
child value; any other tag is ignored. -/
def mlvStep (p : List Char × List Char) (c : Element) : List Char × List Char :=
  if c.tag = "CONC".data then (p.1 ++ c.value, c.crlf)
  else if c.tag = "CONT".data then (p.1 ++ p.2 ++ c.value, c.crlf)
  else p

/-- Element.multi_line_value. -/
def multiLineValue (e : Element) : List Char :=
  (e.children.foldl mlvStep (e.value, e.crlf)).1

example : splitlines "ab\ncd".data = ["ab".data, "cd".data] := by decide
example : splitlines "ab\r\ncd\n".data = ["ab".data, "cd".data] := by decide
example : splitlines "".data = [] := by decide
example : intDigits 0 = ['0'] := by decide
example : lineLengthRaw 3 "ab cde".data = 2 := by decide
example : lineLengthRaw 5 "ab cdef".data = 5 := by decide

/- ### The split-point computation (Element.__line_length) -/

theorem spaceRun_le_length (l : List Char) : spaceRun l ≤ l.length := by
  induction l with
  | nil => simp [spaceRun]
  | cons c r ih => by_cases h : c = ' ' <;> simp [spaceRun, h] <;> omega

theorem spaceRun_spaces (l : List Char) :
    ∀ j, j < spaceRun l → l.getD j 'x' = ' ' := by
  induction l with
  | nil => intro j hj; simp [spaceRun] at hj
  | cons c r ih =>
    intro j hj
    by_cases h : c = ' '
    · cases j with
      | zero => simpa using h
      | succ j =>
        simp only [spaceRun, if_pos h] at hj
        simpa using ih j (by omega)
    · simp [spaceRun, h] at hj

theorem spaceRun_stop (l : List Char) (h : spaceRun l < l.length) :
    l.getD (spaceRun l) 'x' ≠ ' ' := by
  induction l with
  | nil => simp at h
  | cons c r ih =>
    by_cases hc : c = ' '
    · have hs : spaceRun (c :: r) = spaceRun r + 1 := by simp [spaceRun, hc]
      rw [hs, List.getD_cons_succ]
      apply ih
      rw [hs] at h
      simp only [List.length_cons] at h
      omega
    · have hs : spaceRun (c :: r) = 0 := by simp [spaceRun, hc]
      rw [hs, List.getD_cons_zero]
      exact hc

theorem getD_reverse_take (s : List Char) (avail j : Nat)
    (ha : avail ≤ s.length) (hj : j < avail) :
    ((s.take avail).reverse).getD j 'x' = s.getD (avail - 1 - j) 'x' := by
  have hlen : (s.take avail).length = avail := by
    simp [List.length_take]
    omega
  have h1 : j < (s.take avail).reverse.length := by
    rw [List.length_reverse, hlen]
    omega
  rw [List.getD_eq_getElem _ _ h1, List.getElem_reverse]
  have h2 : (s.take avail).length - 1 - j < (s.take avail).length := by omega
  have h3 : avail - 1 - j < s.length := by omega
  rw [List.getD_eq_getElem s _ h3]
  rw [List.getElem_take]
  congr 1
  omega

/-- C3: when the overflowing string does not fit in the budget and the
character at the candidate split position (the budget itself) is a space,
__line_length walks back over the spaces immediately preceding the split
point and splits at the last boundary whose preceding character is not a
space; when no such boundary exists (the whole candidate prefix consists
of spaces) it splits exactly at the budget.  The four conjuncts pin the
returned length down completely; in particular a split point with a
non-space character right before it is never moved, so a word is cut
mid-word whenever the character at position budget - 1 is not a space
(see c3_counterexample). -/
theorem c3_split_backoff (e : Element) (s : List Char)
    (h1 : 1 ≤ availChars e) (h2 : availChars e < s.length)
    (h3 : s.getD (availChars e) 'x' = ' ') :
    1 ≤ lineLength e s ∧ lineLength e s ≤ availChars e ∧
    (∀ j, lineLength e s ≤ j → j < availChars e → s.getD j 'x' = ' ') ∧
    ((lineLength e s = availChars e ∧ ∀ j, j < availChars e → s.getD j 'x' = ' ')
      ∨ s.getD (lineLength e s - 1) 'x' ≠ ' ') := by
  have hnot : ¬ (s.length ≤ availChars e) := by omega
  have hlenpref : (s.take (availChars e)).length = availChars e := by
    simp [List.length_take]
    omega
  have hKle : spaceRun (s.take (availChars e)).reverse ≤ availChars e := by
    have := spaceRun_le_length (s.take (availChars e)).reverse
    rwa [List.length_reverse, hlenpref] at this
  have hLL : lineLength e s =
      if spaceRun (s.take (availChars e)).reverse = availChars e then availChars e
      else availChars e - spaceRun (s.take (availChars e)).reverse := by
    simp [lineLength, lineLengthRaw, hnot]
  by_cases hKA : spaceRun (s.take (availChars e)).reverse = availChars e
  · rw [hLL, if_pos hKA]
    refine ⟨by omega, le_refl _, ?_, Or.inl ⟨rfl, ?_⟩⟩
    · intro j hj1 hj2; omega
    · intro j hj
      have hx := spaceRun_spaces (s.take (availChars e)).reverse
        (availChars e - 1 - j) (by omega)
      rw [getD_reverse_take s (availChars e) _ (by omega) (by omega)] at hx
      rwa [(by omega : availChars e - 1 - (availChars e - 1 - j) = j)] at hx
  · rw [hLL, if_neg hKA]
    have hKlt : spaceRun (s.take (availChars e)).reverse < availChars e := by omega
    refine ⟨by omega, by omega, ?_, Or.inr ?_⟩
    · intro j hj1 hj2
      have hx := spaceRun_spaces (s.take (availChars e)).reverse
        (availChars e - 1 - j) (by omega)
      rw [getD_reverse_take s (availChars e) _ (by omega) (by omega)] at hx
      rwa [(by omega : availChars e - 1 - (availChars e - 1 - j) = j)] at hx
    · have hx := spaceRun_stop (s.take (availChars e)).reverse
        (by rw [List.length_reverse, hlenpref]; omega)
      rw [getD_reverse_take s (availChars e) _ (by omega) hKlt] at hx
      rwa [(by omega : availChars e - 1 - spaceRun (s.take (availChars e)).reverse
        = availChars e - spaceRun (s.take (availChars e)).reverse - 1)] at hx

/-- A level-0 NOTE record with no pointer, as produced by parsing the line
"0 NOTE" with a bare newline terminator.  Its value budget is
255 - length("0 NOTE" + newline) = 248 characters. -/
def noteElem : Element := ⟨0, [], "NOTE".data, [], ['\n'], []⟩

/-- Witness for c3_split_backoff: for the 250-character value consisting of
248 letters, then a space at the candidate split position, the split is
taken at the full budget (no trailing spaces to back over). -/
theorem c3_split_backoff_witness :
    1 ≤ lineLength noteElem (List.replicate 248 'y' ++ [' ', 'z']) ∧
    lineLength noteElem (List.replicate 248 'y' ++ [' ', 'z']) ≤ availChars noteElem ∧
    (∀ j, lineLength noteElem (List.replicate 248 'y' ++ [' ', 'z']) ≤ j →
      j < availChars noteElem →
      (List.replicate 248 'y' ++ [' ', 'z']).getD j 'x' = ' ') ∧
    ((lineLength noteElem (List.replicate 248 'y' ++ [' ', 'z']) = availChars noteElem ∧
      ∀ j, j < availChars noteElem →
        (List.replicate 248 'y' ++ [' ', 'z']).getD j 'x' = ' ')
      ∨ (List.replicate 248 'y' ++ [' ', 'z']).getD
          (lineLength noteElem (List.replicate 248 'y' ++ [' ', 'z']) - 1) 'x' ≠ ' ') :=
  c3_split_backoff noteElem (List.replicate 248 'y' ++ [' ', 'z'])
    (by decide) (by decide) (by decide)

/-- C3 counterexample: the claim also asserts that when the natural split
point falls mid-word the encoder backs off to the nearest preceding space
unless the word exceeds the full budget.  The code does not: it only backs
off over spaces that directly precede the split point.  Here the value is
240 letters a, one space, and a 20-letter word of b (well under the
248-character budget of noteElem), yet set_multi_line_value keeps
"a"*240 + " " + "b"*7 on the record — cutting the b word after 7 letters
instead of backing off to the space at position 240 (which would keep only
"a"*240). -/
theorem c3_counterexample :
    (setMultiLineValue noteElem
        (List.replicate 240 'a' ++ ' ' :: List.replicate 20 'b')).value
      = List.replicate 240 'a' ++ ' ' :: List.replicate 7 'b' ∧
    (setMultiLineValue noteElem
        (List.replicate 240 'a' ++ ' ' :: List.replicate 20 'b')).value
      ≠ List.replicate 240 'a' := by
  constructor
  · decide
  · decide

/- ### Normal form of the encoder output -/

/-- The children kept by set_multi_line_value: those not tagged CONC/CONT. -/
def keptOf (e : Element) : List Element :=
  e.children.filter (fun c => !(isCodecTag c.tag))

/-- The budget used for the record's own (first) line segment: its
serialization with the value cleared. -/
def selfAvailOf (e : Element) : Nat :=
  availChars { e with value := [], children := [] }

/-- The CONC children emitted for an overflow string s. -/
def concChildrenOf (e : Element) (s : List Char) : List Element :=
  (concChunks (availChars (newChildElem e "CONC".data)) s.length s).map
    (fun v => { newChildElem e "CONC".data with value := v })

/-- The CONT child and trailing CONC children emitted for one logical
line after the first. -/
def contGroupOf (e : Element) (li : List Char) : List Element :=
  { newChildElem e "CONT".data with
      value := li.take (lineLength (newChildElem e "CONT".data) li) }
    :: concChildrenOf e (li.drop (lineLength (newChildElem e "CONT".data) li))

theorem addConcatenation_eq (e : Element) (s : List Char) :
    addConcatenation e s = { e with children := e.children ++ concChildrenOf e s } :=
  rfl

theorem addContLine_eq (e : Element) (li : List Char) :
    addContLine e li = { e with children := e.children ++ contGroupOf e li } := by
  show { e with children := (e.children ++ [_]) ++ _ } = _
  rw [List.append_assoc]
  rfl

theorem foldl_addContLine (rest : List (List Char)) : ∀ e : Element,
    rest.foldl addContLine e
      = { e with children := e.children ++ (rest.map (contGroupOf e)).flatten } := by
  induction rest with
  | nil =>
    intro e
    cases e
    simp only [List.foldl_nil, List.map_nil, List.flatten_nil, List.append_nil]
  | cons li rest ih =>
    intro e
    rw [List.foldl_cons, addContLine_eq, ih]
    show { e with children :=
        (e.children ++ contGroupOf e li) ++ (rest.map (contGroupOf e)).flatten } = _
    rw [List.map_cons, List.flatten_cons, List.append_assoc]

theorem setMultiLineValue_nil (e : Element) (v : List Char)
    (h : splitlines v = []) :
    setMultiLineValue e v = { e with value := [], children := keptOf e } := by
  simp only [setMultiLineValue, h, keptOf]

theorem setMultiLineValue_cons (e : Element) (v l0 : List Char)
    (rest : List (List Char)) (h : splitlines v = l0 :: rest) :
    setMultiLineValue e v =
      { e with
        value := l0.take (lineLengthRaw (selfAvailOf e) l0),
        children := keptOf e
          ++ concChildrenOf e (l0.drop (lineLengthRaw (selfAvailOf e) l0))
          ++ (rest.map (contGroupOf e)).flatten } := by
  simp only [setMultiLineValue, h]
  rw [foldl_addContLine]
  rfl

/- ### C9: frame effect of set_multi_line_value -/

theorem mem_concChildrenOf_tag (e : Element) (s : List Char) :
    ∀ c ∈ concChildrenOf e s, c.tag = "CONC".data := by
  intro c hc
  simp only [concChildrenOf, List.mem_map] at hc
  obtain ⟨w, hw, rfl⟩ := hc
  rfl

theorem mem_contGroupOf_codec (e : Element) (li : List Char) :
    ∀ c ∈ contGroupOf e li, isCodecTag c.tag = true := by
  intro c hc
  simp only [contGroupOf, List.mem_cons] at hc
  rcases hc with rfl | hc
  · show isCodecTag "CONT".data = true
    decide
  · rw [isCodecTag, mem_concChildrenOf_tag e _ c hc]
    decide

theorem keptOf_filter (e : Element) :
    (keptOf e).filter (fun c => !(isCodecTag c.tag)) = keptOf e := by
  apply List.filter_eq_self.mpr
  intro c hc
  exact (List.mem_filter.mp hc).2

/-- C9: set_multi_line_value removes only the CONC/CONT children: the
sublist of children carrying any other tag is exactly what it was before
the call (same members, order and multiplicities), and the record's level,
pointer and tag are untouched. -/
theorem c9_frame (e : Element) (v : List Char) :
    (setMultiLineValue e v).level = e.level ∧
    (setMultiLineValue e v).pointer = e.pointer ∧
    (setMultiLineValue e v).tag = e.tag ∧
    (setMultiLineValue e v).children.filter (fun c => !(isCodecTag c.tag))
      = e.children.filter (fun c => !(isCodecTag c.tag)) := by
  cases h : splitlines v with
  | nil =>
    rw [setMultiLineValue_nil e v h]
    exact ⟨rfl, rfl, rfl, keptOf_filter e⟩
  | cons l0 rest =>
    rw [setMultiLineValue_cons e v l0 rest h]
    refine ⟨rfl, rfl, rfl, ?_⟩
    show ((keptOf e ++ _) ++ _).filter _ = _
    rw [List.filter_append, List.filter_append]
    have hconc : (concChildrenOf e
        (l0.drop (lineLengthRaw (selfAvailOf e) l0))).filter
          (fun c => !(isCodecTag c.tag)) = [] := by
      rw [List.filter_eq_nil_iff]
      intro c hc
      rw [isCodecTag, mem_concChildrenOf_tag e _ c hc]
      decide
    have hflat : ((rest.map (contGroupOf e)).flatten).filter
        (fun c => !(isCodecTag c.tag)) = [] := by
      rw [List.filter_eq_nil_iff]
      intro c hc
      rw [List.mem_flatten] at hc
      obtain ⟨gr, hgr, hcgr⟩ := hc
      rw [List.mem_map] at hgr
      obtain ⟨li, _, rfl⟩ := hgr
      rw [mem_contGroupOf_codec e li c hcgr]
      decide
    rw [hconc, hflat, keptOf_filter, List.append_nil, List.append_nil]
    rfl

/- ### C4: emitted continuation lines respect the 255-character budget -/

theorem lineLengthRaw_take_le (avail : Nat) (s : List Char) :
    (s.take (lineLengthRaw avail s)).length ≤ avail := by
  rw [List.length_take]
  by_cases h : s.length ≤ avail
  · simp only [lineLengthRaw, if_pos h]
    omega
  · simp only [lineLengthRaw, if_neg h]
    split <;> omega

theorem concChunks_length_le (avail fuel : Nat) :
    ∀ (s : List Char), ∀ v ∈ concChunks avail fuel s, v.length ≤ avail := by
  induction fuel with
  | zero =>
    intro s v hv
    cases s <;> simp [concChunks] at hv
  | succ fuel ih =>
    intro s v hv
    cases s with
    | nil => simp [concChunks] at hv
    | cons c rest =>
      simp only [concChunks, List.mem_cons] at hv
      rcases hv with rfl | hv
      · exact lineLengthRaw_take_le avail (c :: rest)
      · exact ih _ v hv

theorem serializeBody_child_le (lvl : Int) (tg v crlf : List Char)
    (hlvl : 0 ≤ lvl)
    (hcrlf : 1 ≤ crlf.length)
    (ha : 1 ≤ availChars ⟨lvl, [], tg, [], crlf, []⟩)
    (hv : v.length ≤ availChars ⟨lvl, [], tg, [], crlf, []⟩) :
    (serializeBody ⟨lvl, [], tg, v, crlf, []⟩).length ≤ 255 := by
  have hneg : ¬ (lvl < 0) := by omega
  have hline : (serializeLine ⟨lvl, [], tg, ([] : List Char), crlf, []⟩).length
      = (intDigits lvl).length + (1 + tg.length) + crlf.length := by
    simp [serializeLine, serializeBody, hneg, List.length_append]
    omega
  have hav : availChars ⟨lvl, [], tg, ([] : List Char), crlf, []⟩
      = if (intDigits lvl).length + (1 + tg.length) + crlf.length > 255 then 0
        else 255 - ((intDigits lvl).length + (1 + tg.length) + crlf.length) := by
    simp only [availChars, hline]
  rw [hav] at ha hv
  by_cases hbig : (intDigits lvl).length + (1 + tg.length) + crlf.length > 255
  · rw [if_pos hbig] at ha
    omega
  · rw [if_neg hbig] at ha hv
    by_cases hv0 : v = []
    · subst hv0
      simp [serializeBody, List.length_append]
      omega
    · have : (serializeBody ⟨lvl, [], tg, v, crlf, []⟩).length
          = (intDigits lvl).length + (1 + tg.length) + (1 + v.length) := by
        simp [serializeBody, hv0, List.length_append]
        omega
      rw [this]
      omega

/-- C4: every CONC or CONT child emitted by set_multi_line_value has a
serialized line length (level, optional pointer, separating space, tag,
optional space before the value, and the value — the line terminator is
not counted) of at most 255 characters.  The hypotheses record the data
model: the record's level is at least the virtual root's -1, its
terminator is one of the non-empty strings newline, carriage return or
their combination, and the continuation budget is positive (at realistic
nesting depths it is 248; with a zero budget the Python loop never
terminates). -/
theorem c4_bounded_lines (e : Element) (v : List Char)
    (hlvl : -1 ≤ e.level)
    (hcrlf : 1 ≤ e.crlf.length)
    (hconc : 1 ≤ availChars (newChildElem e "CONC".data))
    (hcont : 1 ≤ availChars (newChildElem e "CONT".data)) :
    ∀ c ∈ (setMultiLineValue e v).children, isCodecTag c.tag = true →
      (serializeBody c).length ≤ 255 := by
  have hkept : ∀ c ∈ keptOf e, isCodecTag c.tag = true → (serializeBody c).length ≤ 255 := by
    intro c hc htag
    have := (List.mem_filter.mp hc).2
    rw [htag] at this
    simp at this
  have hconcline : ∀ s : List Char, ∀ c ∈ concChildrenOf e s,
      (serializeBody c).length ≤ 255 := by
    intro s c hc
    simp only [concChildrenOf, List.mem_map] at hc
    obtain ⟨w, hw, rfl⟩ := hc
    show (serializeBody ⟨e.level + 1, [], "CONC".data, w, e.crlf, []⟩).length ≤ 255
    exact serializeBody_child_le (e.level + 1) "CONC".data w e.crlf (by omega) hcrlf
      hconc (concChunks_length_le _ _ s w hw)
  have hgroupline : ∀ li : List Char, ∀ c ∈ contGroupOf e li,
      (serializeBody c).length ≤ 255 := by
    intro li c hc
    simp only [contGroupOf, List.mem_cons] at hc
    rcases hc with rfl | hc
    · show (serializeBody ⟨e.level + 1, [], "CONT".data,
        li.take (lineLength (newChildElem e "CONT".data) li), e.crlf, []⟩).length ≤ 255
      exact serializeBody_child_le (e.level + 1) "CONT".data _ e.crlf (by omega) hcrlf
        hcont (lineLengthRaw_take_le _ li)
    · exact hconcline _ c hc
  cases h : splitlines v with
  | nil =>
    rw [setMultiLineValue_nil e v h]
    intro c hc htag
    exact hkept c hc htag
  | cons l0 rest =>
    rw [setMultiLineValue_cons e v l0 rest h]
    intro c hc htag
    show (serializeBody c).length ≤ 255
    simp only [List.mem_append] at hc
    rcases hc with (hc | hc) | hc
    · exact hkept c hc htag
    · exact hconcline _ c hc
    · rw [List.mem_flatten] at hc
      obtain ⟨gr, hgr, hcgr⟩ := hc
      rw [List.mem_map] at hgr
      obtain ⟨li, _, rfl⟩ := hgr
      exact hgroupline li c hcgr

/-- Witness for c4_bounded_lines at a parsed-style level-0 NOTE record
with newline terminator and the two-line value "ab\ncd": the single
emitted child is the CONT record holding "cd", and its serialized body
is within the budget. -/
theorem c4_bounded_lines_witness :
    (serializeBody ⟨1, [], "CONT".data, "cd".data, ['\n'], []⟩).length ≤ 255 :=
  c4_bounded_lines noteElem "ab\ncd".data (by decide) (by decide) (by decide) (by decide)
    ⟨1, [], "CONT".data, "cd".data, ['\n'], []⟩ (List.Mem.head _) (by decide)

/- ### C2: decode after encode -/

theorem go_nil (acc : List Char) :
    splitlinesGo false acc [] = if acc.isEmpty then [] else [acc.reverse] := rfl

theorem go_break (acc : List Char) (c : Char) (rest : List Char)
    (h : isLineBreak c = true) :
    splitlinesGo false acc (c :: rest)
      = acc.reverse :: splitlinesGo (c == '\r') [] rest := by
  simp [splitlinesGo, h]

theorem go_newline (acc rest : List Char) :
    splitlinesGo false acc ('\n' :: rest)
      = acc.reverse :: splitlinesGo false [] rest := rfl

theorem go_plain (acc : List Char) (c : Char) (rest : List Char)
    (h : isLineBreak c = false) :
    splitlinesGo false acc (c :: rest) = splitlinesGo false (c :: acc) rest := by
  simp [splitlinesGo, h]

theorem splitGo_ne_nil (s : List Char) :
    ∀ acc : List Char, s ≠ [] ∨ acc ≠ [] → splitlinesGo false acc s ≠ [] := by
  induction s with
  | nil =>
    intro acc h
    cases acc with
    | nil => rcases h with h | h <;> exact absurd rfl h
    | cons a as => simp [go_nil]
  | cons c rest ih =>
    intro acc h
    by_cases hb : isLineBreak c = true
    · rw [go_break acc c rest hb]
      simp
    · rw [go_plain acc c rest (by simpa using hb)]
      exact ih (c :: acc) (Or.inr (by simp))

/-- The lines produced by splitlines, rejoined with a newline between
consecutive lines (and no terminating newline). -/
def joinNL : List (List Char) → List Char
  | [] => []
  | l :: rest => l ++ (rest.map (fun li => '\n' :: li)).flatten

theorem joinNL_cons_of_ne (l : List Char) (L : List (List Char)) (h : L ≠ []) :
    joinNL (l :: L) = l ++ '\n' :: joinNL L := by
  cases L with
  | nil => exact absurd rfl h
  | cons a as => simp [joinNL, List.flatten_cons]

theorem splitGo_join (s : List Char)
    (hbr : ∀ c ∈ s, isLineBreak c = true → c = '\n')
    (hlast : s.getLast? ≠ some '\n') :
    ∀ acc : List Char, joinNL (splitlinesGo false acc s) = acc.reverse ++ s := by
  induction s with
  | nil =>
    intro acc
    rw [go_nil]
    by_cases h : acc.isEmpty
    · rw [if_pos h]
      rw [List.isEmpty_iff] at h
      simp [h, joinNL]
    · rw [if_neg h]
      simp [joinNL]
  | cons c rest ih =>
    intro acc
    have hbr' : ∀ d ∈ rest, isLineBreak d = true → d = '\n' :=
      fun d hd => hbr d (List.mem_cons_of_mem _ hd)
    have hlast' : rest.getLast? ≠ some '\n' := by
      cases rest with
      | nil => simp
      | cons r rs => rwa [List.getLast?_cons_cons] at hlast
    by_cases hb : isLineBreak c = true
    · have hc : c = '\n' := hbr c (List.mem_cons_self _ _) hb
      subst hc
      rw [go_newline]
      have hrne : rest ≠ [] := by
        intro h0
        subst h0
        exact hlast rfl
      rw [joinNL_cons_of_ne _ _ (splitGo_ne_nil rest [] (Or.inl hrne))]
      rw [ih hbr' hlast' []]
      simp
    · rw [go_plain acc c rest (by simpa using hb)]
      rw [ih hbr' hlast' (c :: acc)]
      simp

theorem lineLengthRaw_pos (avail : Nat) (s : List Char)
    (h1 : 1 ≤ avail) (h2 : s ≠ []) : 1 ≤ lineLengthRaw avail s := by
  by_cases h : s.length ≤ avail
  · simp only [lineLengthRaw, if_pos h]
    cases s with
    | nil => exact absurd rfl h2
    | cons a l => simp
  · simp only [lineLengthRaw, if_neg h]
    have hsp : spaceRun (s.take avail).reverse ≤ avail := by
      have := spaceRun_le_length (s.take avail).reverse
      rw [List.length_reverse, List.length_take] at this
      omega
    split <;> omega

theorem concChunks_flatten (avail : Nat) (h : 1 ≤ avail) :
    ∀ (fuel : Nat) (s : List Char), s.length ≤ fuel →
      (concChunks avail fuel s).flatten = s := by
  intro fuel
  induction fuel with
  | zero =>
    intro s hs
    have h0 : s = [] := List.length_eq_zero.mp (by omega)
    subst h0
    rfl
  | succ fuel ih =>
    intro s hs
    cases s with
    | nil => rfl
    | cons c rest =>
      have hpos := lineLengthRaw_pos avail (c :: rest) h (by simp)
      simp only [concChunks, List.flatten_cons]
      rw [ih _ (by rw [List.length_drop]; simp only [List.length_cons] at hs ⊢; omega)]
      exact List.take_append_drop _ _

theorem mlvStep_conc (p : List Char × List Char) (c : Element)
    (h : c.tag = "CONC".data) : mlvStep p c = (p.1 ++ c.value, c.crlf) := by
  simp [mlvStep, h]

theorem mlvStep_cont (p : List Char × List Char) (c : Element)
    (h : c.tag = "CONT".data) : mlvStep p c = (p.1 ++ p.2 ++ c.value, c.crlf) := by
  unfold mlvStep
  rw [h, if_neg (by decide), if_pos rfl]

theorem mlvStep_other (p : List Char × List Char) (c : Element)
    (h : isCodecTag c.tag = false) : mlvStep p c = p := by
  simp only [isCodecTag, Bool.or_eq_false_iff, beq_eq_false_iff_ne, ne_eq] at h
  simp [mlvStep, h.1, h.2]

theorem foldl_mlvStep_skip (cs : List Element) :
    ∀ (p : List Char × List Char), (∀ c ∈ cs, isCodecTag c.tag = false) →
      cs.foldl mlvStep p = p := by
  induction cs with
  | nil => intro p _; rfl
  | cons c cs ih =>
    intro p h
    rw [List.foldl_cons, mlvStep_other p c (h c (by simp))]
    exact ih p (fun d hd => h d (by simp [hd]))

theorem foldl_mlvStep_conc (e : Element) (chunks : List (List Char)) :
    ∀ res : List Char,
      ((chunks.map (fun v => { newChildElem e "CONC".data with value := v })).foldl
          mlvStep (res, e.crlf))
        = (res ++ chunks.flatten, e.crlf) := by
  induction chunks with
  | nil => intro res; simp
  | cons v vs ih =>
    intro res
    rw [List.map_cons, List.foldl_cons, mlvStep_conc _ _ rfl]
    show (vs.map _).foldl mlvStep (res ++ v, e.crlf) = _
    rw [ih (res ++ v)]
    simp [List.append_assoc]

theorem foldl_mlvStep_group (e : Element) (li res : List Char)
    (hconc : 1 ≤ availChars (newChildElem e "CONC".data)) :
    (contGroupOf e li).foldl mlvStep (res, e.crlf) = (res ++ e.crlf ++ li, e.crlf) := by
  rw [contGroupOf, List.foldl_cons, mlvStep_cont _ _ rfl]
  show (concChildrenOf e _).foldl mlvStep
    (res ++ e.crlf ++ li.take (lineLength (newChildElem e "CONT".data) li), e.crlf) = _
  rw [concChildrenOf, foldl_mlvStep_conc,
    concChunks_flatten _ hconc _ _ (le_refl _)]
  rw [List.append_assoc, List.take_append_drop]

theorem foldl_mlvStep_groups (e : Element) (rest : List (List Char))
    (hconc : 1 ≤ availChars (newChildElem e "CONC".data)) :
    ∀ res : List Char,
      ((rest.map (contGroupOf e)).flatten).foldl mlvStep (res, e.crlf)
        = (res ++ (rest.map (fun li => e.crlf ++ li)).flatten, e.crlf) := by
  induction rest with
  | nil => intro res; simp
  | cons li rest ih =>
    intro res
    rw [List.map_cons, List.flatten_cons, List.foldl_append,
      foldl_mlvStep_group e li res hconc, ih (res ++ e.crlf ++ li)]
    simp [List.append_assoc]

/-- C2 (amended): decode after encode is the identity for every record
whose line terminator is the newline character and whose CONC budget is
positive, and for every value V in which every line-break character is a
plain newline and which does not end with a line break.  Values violating
these side conditions are not representable: splitlines normalizes every
break to a plain line boundary and drops a terminating break, and the
decoder reinserts the record's own terminator (see c2_counterexample). -/
theorem c2_roundtrip (e : Element) (v : List Char)
    (hcrlf : e.crlf = ['\n'])
    (hconc : 1 ≤ availChars (newChildElem e "CONC".data))
    (hbr : ∀ c ∈ v, isLineBreak c = true → c = '\n')
    (hlast : v.getLast? ≠ some '\n') :
    multiLineValue (setMultiLineValue e v) = v := by
  have hjoin : joinNL (splitlines v) = v := by
    have h0 := splitGo_join v hbr hlast []
    simpa [splitlines] using h0
  have hk : ∀ c ∈ keptOf e, isCodecTag c.tag = false := by
    intro c hc
    have h1 := (List.mem_filter.mp hc).2
    simpa using h1
  cases hsp : splitlines v with
  | nil =>
    have hv : v = [] := by
      rw [hsp] at hjoin
      exact hjoin.symm
    rw [setMultiLineValue_nil e v hsp]
    show ((keptOf e).foldl mlvStep ([], e.crlf)).1 = v
    rw [foldl_mlvStep_skip (keptOf e) _ hk, hv]
  | cons l0 rest =>
    rw [setMultiLineValue_cons e v l0 rest hsp]
    show ((keptOf e
        ++ concChildrenOf e (l0.drop (lineLengthRaw (selfAvailOf e) l0))
        ++ (rest.map (contGroupOf e)).flatten).foldl mlvStep
          (l0.take (lineLengthRaw (selfAvailOf e) l0), e.crlf)).1 = v
    rw [List.foldl_append, List.foldl_append,
      foldl_mlvStep_skip (keptOf e) _ hk,
      concChildrenOf, foldl_mlvStep_conc,
      concChunks_flatten _ hconc _ _ (le_refl _),
      List.take_append_drop,
      foldl_mlvStep_groups e rest hconc, hcrlf]
    show joinNL (l0 :: rest) = v
    rw [hsp] at hjoin
    exact hjoin

/-- C2 counterexample: the round-trip law as claimed quantifies over every
string without an over-long unsplittable run, but it already fails on the
two-character value "a" + newline (which contains no such run): splitlines
drops the terminating newline, so decode(encode("a\n")) returns "a". -/
theorem c2_counterexample :
    multiLineValue (setMultiLineValue noteElem ['a', '\n']) = ['a'] ∧
    multiLineValue (setMultiLineValue noteElem ['a', '\n']) ≠ ['a', '\n'] := by
  constructor
  · decide
  · decide

/-- Witness for c2_roundtrip on a concrete two-line value. -/
theorem c2_roundtrip_witness :
    multiLineValue (setMultiLineValue noteElem "ab\ncd".data) = "ab\ncd".data :=
  c2_roundtrip noteElem "ab\ncd".data rfl (by decide) (by decide) (by decide)

/- ### Tree builder (Gedcom.__parse and Gedcom.__parse_line) -/

/-- The errors of the spec's taxonomy that the model can raise.  The Python
code raises SyntaxError for both grammar and structure violations (with
distinct messages citing the 1-based line number) and ValueError for a
query invoked on a record of the wrong kind. -/
inductive GedErr where
  | grammarError : Nat → GedErr
  | structureError : Nat → GedErr
  | invalidArgument : GedErr
deriving DecidableEq

/-- One node of the parsed forest.  Python Elements are heap objects linked
by mutable references; the model stores them in an arena (a list indexed by
creation order, index 0 being the virtual root) and represents the parent
reference and the child list as indices into that arena. -/
structure PNode where
  level : Int
  pointer : List Char
  tag : List Char
  value : List Char
  parent : Nat
  children : List Nat
deriving DecidableEq

/-- Parser state: the arena and the index of the last element attached
(Python's last_elem). -/
structure PState where
  nodes : List PNode
  last : Nat
deriving DecidableEq

def dfltNode : PNode := ⟨-1, [], [], [], 0, []⟩

/-- Arena lookup (a Python attribute access through a reference; the
default is never reached on the indices the theorems quantify over). -/
def ngetL (ns : List PNode) (i : Nat) : PNode := ns.getD i dfltNode

def nodeAt (st : PState) (i : Nat) : PNode := ngetL st.nodes i

/-- The virtual root Element(-1, "", "TOP", "") created by Gedcom.__init__;
its parent index is itself. -/
def topNode : PNode := ⟨-1, [], "TOP".data, [], 0, []⟩

def initState : PState := ⟨[topNode], 0⟩

/-- One grammar-decomposed line: the regex guarantees a nonnegative
integer level, an optional @-flanked pointer, a word tag and a free-text
value. -/
structure Line where
  level : Nat
  pointer : List Char
  tag : List Char
  value : List Char
deriving DecidableEq

/-- The backward walk of Gedcom.__parse_line: starting from last_elem,
follow parent references while the current node's level exceeds the new
line's level minus one.  The walk is fuel-bounded to make it total; under
the parse invariant the indices strictly decrease, so fuel = arena size
never runs out. -/
def walkUp (ns : List PNode) : Nat → Nat → Nat → Nat
  | 0, i, _ => i
  | fuel + 1, i, lvl =>
    if (ngetL ns i).level > (lvl : Int) - 1 then walkUp ns fuel (ngetL ns i).parent lvl
    else i

/-- Gedcom.__parse_line on an already grammar-decomposed line: reject a
level more than one deeper than the previous element (citing the 1-based
line number), otherwise walk up from the previous element to the true
parent, append the new element to its child list and make it the new
last element. -/
def parseLineStep (lineNum : Nat) (st : PState) (l : Line) : Except GedErr PState :=
  if (l.level : Int) > (nodeAt st st.last).level + 1 then
    .error (.structureError lineNum)
  else
    let p := walkUp st.nodes st.nodes.length st.last l.level
    let k := st.nodes.length
    let pn := ngetL st.nodes p
    let nodes2 := st.nodes.set p { pn with children := pn.children ++ [k] }
    .ok ⟨nodes2 ++ [⟨(l.level : Int), l.pointer, l.tag, l.value, p, []⟩], k⟩

/-- The line loop of Gedcom.__parse, starting at line number n. -/
def parseFrom : Nat → PState → List Line → Except GedErr PState
  | _, st, [] => .ok st
  | n, st, l :: ls =>
    match parseLineStep n st l with
    | .error e => .error e
    | .ok st2 => parseFrom (n + 1) st2 ls

/-- Gedcom.__parse: fold the tree builder over the decomposed lines with
1-based line numbers. -/
def parseAll (ls : List Line) : Except GedErr PState := parseFrom 1 initState ls

theorem ngetL_append_lt (ns : List PNode) (x : PNode) (i : Nat)
    (h : i < ns.length) : ngetL (ns ++ [x]) i = ngetL ns i := by
  unfold ngetL
  rw [List.getD_append _ _ _ _ h]

theorem ngetL_append_len (ns : List PNode) (x : PNode) :
    ngetL (ns ++ [x]) ns.length = x := by
  unfold ngetL
  rw [List.getD_append_right _ _ _ _ (le_refl _)]
  simp

theorem ngetL_set_self (ns : List PNode) (p : Nat) (y : PNode)
    (h : p < ns.length) : ngetL (ns.set p y) p = y := by
  unfold ngetL
  rw [List.getD_eq_getElem?_getD, List.getElem?_set_self h]
  rfl

theorem ngetL_set_ne (ns : List PNode) (p i : Nat) (y : PNode)
    (h : p ≠ i) : ngetL (ns.set p y) i = ngetL ns i := by
  unfold ngetL
  rw [List.getD_eq_getElem?_getD, List.getElem?_set_ne h, ← List.getD_eq_getElem?_getD]

/-- The structural invariant of the arena: the root has level -1 and is
its own parent; every other node has a parent of strictly smaller index,
sits one level below it, and occurs exactly once in its parent's child
list; and every child index is a valid non-root index whose parent
reference points back. -/
def InvAt (ns : List PNode) (i : Nat) : Prop :=
  (i = 0 → (ngetL ns i).level = -1 ∧ (ngetL ns i).parent = 0) ∧
  (i ≠ 0 → (ngetL ns i).parent < i ∧ 0 ≤ (ngetL ns i).level ∧
    (ngetL ns i).level = (ngetL ns (ngetL ns i).parent).level + 1 ∧
    ((ngetL ns (ngetL ns i).parent).children).count i = 1) ∧
  (∀ j ∈ (ngetL ns i).children, j < ns.length ∧ j ≠ 0 ∧ (ngetL ns j).parent = i)

def ParseInv (st : PState) : Prop :=
  st.nodes ≠ [] ∧ st.last < st.nodes.length ∧
  ∀ i, i < st.nodes.length → InvAt st.nodes i

theorem parseInv_init : ParseInv initState := by
  refine ⟨by simp [initState], by simp [initState], ?_⟩
  intro i hi
  have h0 : i = 0 := by
    simp [initState] at hi
    omega
  subst h0
  refine ⟨fun _ => ⟨rfl, rfl⟩, fun h => absurd rfl h, ?_⟩
  intro j hj
  simp [initState, ngetL, topNode] at hj

theorem walkUp_succ (ns : List PNode) (fuel i lvl : Nat) :
    walkUp ns (fuel + 1) i lvl =
      if (ngetL ns i).level > (lvl : Int) - 1 then
        walkUp ns fuel (ngetL ns i).parent lvl
      else i := rfl

theorem walkUp_spec (ns : List PNode)
    (hInv : ∀ i, i < ns.length → InvAt ns i) (lvl : Nat) :
    ∀ (fuel i : Nat), i < ns.length → i < fuel →
      (lvl : Int) ≤ (ngetL ns i).level + 1 →
      walkUp ns fuel i lvl < ns.length ∧
      (ngetL ns (walkUp ns fuel i lvl)).level = (lvl : Int) - 1 := by
  intro fuel
  induction fuel with
  | zero => intro i _ hf; omega
  | succ fuel ih =>
    intro i hi hf hle
    by_cases hgt : (ngetL ns i).level > (lvl : Int) - 1
    · have hne : i ≠ 0 := by
        intro h0
        subst h0
        have := (hInv 0 hi).1 rfl
        omega
      have hat := (hInv i hi).2.1 hne
      have hplt : (ngetL ns i).parent < i := hat.1
      have hlvlp : (ngetL ns i).level = (ngetL ns (ngetL ns i).parent).level + 1 :=
        hat.2.2.1
      rw [walkUp_succ, if_pos hgt]
      exact ih (ngetL ns i).parent (by omega) (by omega) (by omega)
    · rw [walkUp_succ, if_neg hgt]
      exact ⟨hi, by omega⟩

theorem arena_extend_invAt (ns : List PNode) (p : Nat) (nw : PNode)
    (hall : ∀ i, i < ns.length → InvAt ns i)
    (hp : p < ns.length)
    (hlen0 : 0 < ns.length)
    (hparent : nw.parent = p)
    (hlevel : nw.level = (ngetL ns p).level + 1)
    (hlevel0 : 0 ≤ nw.level)
    (hchild : nw.children = ([] : List Nat)) :
    ∀ i, i < ns.length + 1 →
      InvAt (ns.set p ⟨(ngetL ns p).level, (ngetL ns p).pointer, (ngetL ns p).tag,
        (ngetL ns p).value, (ngetL ns p).parent,
        (ngetL ns p).children ++ [ns.length]⟩ ++ [nw]) i := by
  set k := ns.length with hk
  set pn2 : PNode := ⟨(ngetL ns p).level, (ngetL ns p).pointer, (ngetL ns p).tag,
    (ngetL ns p).value, (ngetL ns p).parent, (ngetL ns p).children ++ [k]⟩ with hpn2
  set ns2 : List PNode := ns.set p pn2 ++ [nw] with hns2
  have hlen2 : ns2.length = k + 1 := by
    rw [hns2, List.length_append, List.length_set]
    rfl
  have GA : ∀ j, j < k → j ≠ p → ngetL ns2 j = ngetL ns j := by
    intro j h1 h2
    rw [hns2, ngetL_append_lt _ _ _ (by rw [List.length_set]; exact h1),
      ngetL_set_ne _ _ _ _ (Ne.symm h2)]
  have GB : ngetL ns2 p = pn2 := by
    rw [hns2, ngetL_append_lt _ _ _ (by rw [List.length_set]; exact hp),
      ngetL_set_self _ _ _ hp]
  have GC : ngetL ns2 k = nw := by
    have hk2 : k = (ns.set p pn2).length := by rw [List.length_set]
    rw [hns2, hk2, ngetL_append_len]
  have GD : ∀ j, j < k →
      (ngetL ns2 j).level = (ngetL ns j).level ∧
      (ngetL ns2 j).parent = (ngetL ns j).parent := by
    intro j h1
    by_cases hjp : j = p
    · subst hjp
      rw [GB]
      exact ⟨rfl, rfl⟩
    · rw [GA j h1 hjp]
      exact ⟨rfl, rfl⟩
  have hknz : k ≠ 0 := by omega
  intro i hi
  by_cases hik : i = k
  · subst hik
    refine ⟨fun h0 => absurd h0 hknz, fun _ => ?_, ?_⟩
    · rw [GC, hparent]
      refine ⟨hp, hlevel0, ?_, ?_⟩
      · rw [GB]
        have : pn2.level = (ngetL ns p).level := rfl
        rw [this]
        exact hlevel
      · rw [GB]
        have hch : pn2.children = (ngetL ns p).children ++ [k] := rfl
        rw [hch, List.count_append, List.count_singleton]
        have hnm : k ∉ (ngetL ns p).children := by
          intro hmem
          have := ((hall p hp).2.2 k hmem).1
          omega
        rw [List.count_eq_zero_of_not_mem hnm]
        simp
    · intro j hj
      rw [GC, hchild] at hj
      simp at hj
  · have hilt : i < k := by omega
    have hold := hall i hilt
    by_cases hip : i = p
    · have GBi : ngetL ns2 i = pn2 := by rw [hip]; exact GB
      refine ⟨?_, ?_, ?_⟩
      · intro h0
        rw [GBi]
        have h1 : pn2.level = (ngetL ns i).level := by rw [hip]
        have h2 : pn2.parent = (ngetL ns i).parent := by rw [hip]
        rw [h1, h2]
        exact hold.1 h0
      · intro hiz
        obtain ⟨ho1, ho2, ho3, ho4⟩ := hold.2.1 hiz
        rw [GBi]
        have h1 : pn2.level = (ngetL ns i).level := by rw [hip]
        have h2 : pn2.parent = (ngetL ns i).parent := by rw [hip]
        rw [h1, h2]
        refine ⟨ho1, ho2, ?_, ?_⟩
        · rw [(GD (ngetL ns i).parent (by omega)).1]
          exact ho3
        · rw [GA (ngetL ns i).parent (by omega) (by omega)]
          exact ho4
      · intro j hj
        rw [GBi] at hj
        have hj2 : j ∈ (ngetL ns p).children ++ [k] := hj
        rw [hlen2]
        rcases List.mem_append.mp hj2 with hjold | hjnew
        · obtain ⟨hj1, hj2b, hj3⟩ := (hall p hp).2.2 j hjold
          have hjnp : j ≠ p := by
            intro hjp
            subst hjp
            by_cases hz : j = 0
            · exact hj2b hz
            · have := ((hall j hj1).2.1 hz).1
              rw [hj3] at this
              omega
          refine ⟨by omega, hj2b, ?_⟩
          rw [(GD j (by omega)).2, hj3, hip]
        · have hjk : j = k := by simpa using hjnew
          subst hjk
          refine ⟨by omega, hknz, ?_⟩
          rw [GC, hparent, hip]
    · have hieq : ngetL ns2 i = ngetL ns i := GA i hilt hip
      refine ⟨?_, ?_, ?_⟩
      · intro h0
        rw [hieq]
        exact hold.1 h0
      · intro hiz
        obtain ⟨ho1, ho2, ho3, ho4⟩ := hold.2.1 hiz
        rw [hieq]
        refine ⟨ho1, ho2, ?_, ?_⟩
        · rw [(GD (ngetL ns i).parent (by omega)).1]
          exact ho3
        · by_cases hpp : (ngetL ns i).parent = p
          · rw [hpp, GB]
            have hch : pn2.children = (ngetL ns p).children ++ [k] := rfl
            rw [hch, List.count_append, List.count_singleton]
            rw [hpp] at ho4
            simp only [beq_iff_eq]
            rw [if_neg (by omega)]
            omega
          · rw [GA (ngetL ns i).parent (by omega) hpp]
            exact ho4
      · intro j hj
        rw [hieq] at hj
        obtain ⟨hj1, hj2, hj3⟩ := hold.2.2 j hj
        rw [hlen2]
        refine ⟨by omega, hj2, ?_⟩
        rw [(GD j (by omega)).2]
        exact hj3

theorem parseLineStep_inv (n : Nat) (st : PState) (l : Line) (st2 : PState)
    (hInv : ParseInv st) (h : parseLineStep n st l = .ok st2) : ParseInv st2 := by
  obtain ⟨hne, hla, hall⟩ := hInv
  have hne2 : st.nodes ≠ [] := hne
  have hla2 : st.last < st.nodes.length := hla
  have hall2 : ∀ i, i < st.nodes.length → InvAt st.nodes i := hall
  unfold parseLineStep at h
  by_cases hcond : (l.level : Int) > (nodeAt st st.last).level + 1
  · rw [if_pos hcond] at h
    exact absurd h (by simp)
  · rw [if_neg hcond] at h
    have hle : (l.level : Int) ≤ (ngetL st.nodes st.last).level + 1 := by
      simp only [nodeAt] at hcond
      omega
    have hw := walkUp_spec st.nodes hall2 l.level st.nodes.length st.last hla2 hla2 hle
    simp only [Except.ok.injEq] at h
    subst h
    refine ⟨by simp, ?_, ?_⟩
    · show st.nodes.length < (_ ++ [_] : List PNode).length
      rw [List.length_append, List.length_set]
      simp
    · have harena := arena_extend_invAt st.nodes
        (walkUp st.nodes st.nodes.length st.last l.level)
        ⟨(l.level : Int), l.pointer, l.tag, l.value,
          walkUp st.nodes st.nodes.length st.last l.level, []⟩
        hall2 hw.1 (List.length_pos.mpr hne2) rfl
        (by show (l.level : Int) = _ + 1; have := hw.2; omega)
        (by show (0 : Int) ≤ (l.level : Int); omega)
        rfl
      intro i hi
      have hi2 : i < st.nodes.length + 1 := by
        rw [List.length_append, List.length_set] at hi
        simpa using hi
      exact harena i hi2

theorem parseFrom_inv : ∀ (ls : List Line) (n : Nat) (st st2 : PState),
    ParseInv st → parseFrom n st ls = .ok st2 → ParseInv st2 := by
  intro ls
  induction ls with
  | nil =>
    intro n st st2 h1 h2
    simp only [parseFrom, Except.ok.injEq] at h2
    rwa [← h2]
  | cons l ls ih =>
    intro n st st2 h1 h2
    rw [parseFrom] at h2
    cases hstep : parseLineStep n st l with
    | error e => rw [hstep] at h2; simp at h2
    | ok stm =>
      rw [hstep] at h2
      exact ih (n + 1) stm st2 (parseLineStep_inv n st l stm h1 hstep) h2

theorem parseAll_inv (ls : List Line) (st : PState) (h : parseAll ls = .ok st) :
    ParseInv st :=
  parseFrom_inv ls 1 initState st parseInv_init h

/-- C1: after a successful parse, every non-root record of the forest sits
exactly one level below its parent and occurs exactly once in its parent's
child list — for every input line sequence the tree builder accepts,
however the levels decrease or stay equal between consecutive lines. -/
theorem c1_parent_child (ls : List Line) (st : PState)
    (h : parseAll ls = Except.ok st) :
    ∀ i, i < st.nodes.length → i ≠ 0 →
      (nodeAt st i).level = (nodeAt st (nodeAt st i).parent).level + 1 ∧
      ((nodeAt st (nodeAt st i).parent).children).count i = 1 := by
  have hInv := parseAll_inv ls st h
  intro i hi hne
  obtain ⟨_, _, h3, h4⟩ := (hInv.2.2 i hi).2.1 hne
  exact ⟨h3, h4⟩

/-- A small document exercising a level increase, a further increase, a
sibling return and a return to the top level. -/
def demoLines : List Line :=
  [⟨0, "@I1@".data, "INDI".data, []⟩,
   ⟨1, [], "NAME".data, "Ann /Lee/".data⟩,
   ⟨2, [], "GIVN".data, "Ann".data⟩,
   ⟨1, [], "SEX".data, "F".data⟩,
   ⟨0, "@F1@".data, "FAM".data, []⟩]

def demoState : PState :=
  match parseAll demoLines with
  | .ok st => st
  | .error _ => initState

theorem c1_parent_child_witness :
    (nodeAt demoState 3).level
        = (nodeAt demoState (nodeAt demoState 3).parent).level + 1 ∧
    ((nodeAt demoState (nodeAt demoState 3).parent).children).count 3 = 1 :=
  c1_parent_child demoLines demoState (by rfl) 3 (by decide) (by decide)

/- ### C5: the level-jump check is the only structural rejection -/

theorem parseFrom_append (xs : List Line) : ∀ (ys : List Line) (n : Nat) (st : PState),
    parseFrom n st (xs ++ ys)
      = match parseFrom n st xs with
        | .ok st2 => parseFrom (n + xs.length) st2 ys
        | .error e => .error e := by
  induction xs with
  | nil =>
    intro ys n st
    simp [parseFrom]
  | cons x xs ih =>
    intro ys n st
    show parseFrom n st (x :: (xs ++ ys)) = _
    rw [parseFrom, parseFrom]
    cases hstep : parseLineStep n st x with
    | error e => rfl
    | ok stm =>
      dsimp only
      rw [ih ys (n + 1) stm]
      have hn : n + 1 + xs.length = n + (x :: xs).length := by
        simp only [List.length_cons]
        omega
      rw [hn]

/-- C5: while parsing, a decomposed line whose level exceeds the previous
element's level plus one makes the parse fail with the structure error
carrying the 1-based number of that line, and this is the only structural
rejection: when the level is equal to, or smaller by any amount than, the
previous level plus one, the line is accepted and the parse of the
document up to and including it succeeds. -/
theorem c5_level_jump (pre : List Line) (bad : Line) (rest : List Line) (st : PState)
    (h : parseAll pre = Except.ok st) :
    ((bad.level : Int) > (nodeAt st st.last).level + 1 →
      parseAll (pre ++ bad :: rest)
        = Except.error (GedErr.structureError (pre.length + 1))) ∧
    ((bad.level : Int) ≤ (nodeAt st st.last).level + 1 →
      ∃ st2, parseAll (pre ++ [bad]) = Except.ok st2) := by
  rw [parseAll] at h
  constructor
  · intro hjump
    rw [parseAll, parseFrom_append pre (bad :: rest) 1 initState, h]
    show parseFrom (1 + pre.length) st (bad :: rest) = _
    have hstep : parseLineStep (1 + pre.length) st bad
        = .error (.structureError (1 + pre.length)) := by
      unfold parseLineStep
      rw [if_pos hjump]
    rw [parseFrom, hstep]
    show Except.error (GedErr.structureError (1 + pre.length)) = _
    rw [Nat.add_comm]
  · intro hle
    rw [parseAll, parseFrom_append pre [bad] 1 initState, h]
    show (∃ st2, parseFrom (1 + pre.length) st [bad] = Except.ok st2)
    rw [parseFrom]
    cases hstep : parseLineStep (1 + pre.length) st bad with
    | error e =>
      exfalso
      unfold parseLineStep at hstep
      rw [if_neg (by omega)] at hstep
      exact absurd hstep (by simp)
    | ok stm =>
      exact ⟨stm, rfl⟩

def demoState5 : PState :=
  match parseAll [⟨0, [], "INDI".data, []⟩] with
  | .ok st => st
  | .error _ => initState

/-- Witness for c5_level_jump: after the single line "0 INDI", the line
"2 NAME x" (level jump 0 to 2) is rejected with the structure error at
line 2, while the same line would be accepted were its level within
bounds (the second implication's premise is false here, making it hold
vacuously; the acceptance side is also exercised by c1's demo document,
which parseAll accepts). -/
theorem c5_level_jump_witness :
    (((2 : Nat) : Int) > (nodeAt demoState5 demoState5.last).level + 1 →
      parseAll ([⟨0, [], "INDI".data, []⟩] ++ ⟨2, [], "NAME".data, "x".data⟩ :: [])
        = Except.error (GedErr.structureError 2)) ∧
    (((2 : Nat) : Int) ≤ (nodeAt demoState5 demoState5.last).level + 1 →
      ∃ st2, parseAll ([⟨0, [], "INDI".data, []⟩] ++ [⟨2, [], "NAME".data, "x".data⟩])
        = Except.ok st2) :=
  c5_level_jump [⟨0, [], "INDI".data, []⟩] ⟨2, [], "NAME".data, "x".data⟩ []
    demoState5 (by rfl)

/- ### Pointer index (Gedcom.element_dict) and family queries -/

/-- Gedcom.records(): the children of the virtual root, i.e. the level-0
logical records in document order. -/
def recordIdxs (st : PState) : List Nat := (nodeAt st 0).children

/-- Lookup in the dictionary built by Gedcom.element_dict: the
comprehension iterates records() keeping elements with a non-empty
pointer, and a later record with the same pointer overwrites an earlier
one, so a lookup returns the last level-0 record declaring the pointer,
and nothing for the empty pointer or a pointer no level-0 record
declares. -/
def elemDictFind (st : PState) (p : List Char) : Option Nat :=
  if p = [] then none
  else ((recordIdxs st).filter (fun i => (nodeAt st i).pointer == p)).getLast?

/-- Gedcom.families: scan the individual's children for links whose tag is
the family type and whose value resolves through the pointer index to a
FAM record (the guard on the individual's own tag is modelled in
familiesE). -/
def familiesOf (st : PState) (i : Nat) (ftype : List Char) : List Nat :=
  (nodeAt st i).children.filterMap (fun c =>
    match elemDictFind st (nodeAt st c).value with
    | some f =>
      if (nodeAt st c).tag == ftype && (nodeAt st f).tag == "FAM".data then some f
      else none
    | none => none)

/-- Gedcom.families with its ValueError guard. -/
def familiesE (st : PState) (i : Nat) (ftype : List Char) :
    Except GedErr (List Nat) :=
  if (nodeAt st i).tag == "INDI".data then .ok (familiesOf st i ftype)
  else .error .invalidArgument

/-- The member filter of Gedcom.get_family_members: the default (an
unrecognized mem_type, including "ALL") accepts HUSB, WIFE and CHIL;
the four recognized strings narrow it. -/
def gfmPred (mtype tg : List Char) : Bool :=
  if mtype == "PARENTS".data then tg == "HUSB".data || tg == "WIFE".data
  else if mtype == "HUSB".data then tg == "HUSB".data
  else if mtype == "WIFE".data then tg == "WIFE".data
  else if mtype == "CHIL".data then tg == "CHIL".data
  else tg == "HUSB".data || tg == "WIFE".data || tg == "CHIL".data

/-- Gedcom.get_family_members without its guard: filter the family's
children by role and resolve each through the pointer index, silently
skipping unresolved pointers. -/
def gfmRaw (st : PState) (f : Nat) (mtype : List Char) : List Nat :=
  (nodeAt st f).children.filterMap (fun c =>
    if gfmPred mtype (nodeAt st c).tag then elemDictFind st (nodeAt st c).value
    else none)

/-- Gedcom.get_family_members with its ValueError guard. -/
def getFamilyMembers (st : PState) (f : Nat) (mtype : List Char) :
    Except GedErr (List Nat) :=
  if (nodeAt st f).tag == "FAM".data then .ok (gfmRaw st f mtype)
  else .error .invalidArgument

/-- The inner loop of Gedcom.get_parents over the children of a CHIL
entry: a child valued "Natural" contributes the WIFE members when tagged
_MREL, the HUSB members when tagged _FREL, and nothing otherwise.
get_family_members is called on a record that families() already checked
to be a FAM, so its guard cannot fire and gfmRaw is its exact result. -/
def natMarkerContrib (st : PState) (f : Nat) (c : Nat) : List Nat :=
  if (nodeAt st c).value == "Natural".data then
    if (nodeAt st c).tag == "_MREL".data then gfmRaw st f "WIFE".data
    else if (nodeAt st c).tag == "_FREL".data then gfmRaw st f "HUSB".data
    else []
  else []

/-- The middle loop of Gedcom.get_parents over one FAMC family's children:
only CHIL entries whose value equals the individual's pointer
contribute. -/
def natFamilyContrib (st : PState) (ptr : List Char) (f : Nat) : List Nat :=
  ((nodeAt st f).children.map (fun m =>
    if (nodeAt st m).tag == "CHIL".data && (nodeAt st m).value == ptr then
      ((nodeAt st m).children.map (natMarkerContrib st f)).flatten
    else [])).flatten

/-- Gedcom.get_parents without its guard: parent_type "NAT" walks the CHIL
markers; any other parent_type takes the PARENTS members of every FAMC
family.  Python's repeated list concatenation in loop order is the
flattening of the per-family contributions. -/
def getParentsRaw (st : PState) (i : Nat) (ptype : List Char) : List Nat :=
  if ptype == "NAT".data then
    ((familiesOf st i "FAMC".data).map
        (natFamilyContrib st (nodeAt st i).pointer)).flatten
  else
    ((familiesOf st i "FAMC".data).map (fun f => gfmRaw st f "PARENTS".data)).flatten

/-- Gedcom.get_parents with its ValueError guard. -/
def getParents (st : PState) (i : Nat) (ptype : List Char) :
    Except GedErr (List Nat) :=
  if (nodeAt st i).tag == "INDI".data then .ok (getParentsRaw st i ptype)
  else .error .invalidArgument

/-- C6 (amended): the pointer index maps the pointer of every LEVEL-0
record that declares a non-empty pointer shared by no other level-0
record to that record, and a pointer declared by no level-0 record (or
the empty pointer) resolves to nothing.  element_dict only walks
records() — the root's direct children — so deeper records are not
indexed (see c6_counterexample). -/
theorem c6_pointer_index (st : PState) (i : Nat)
    (hi : i ∈ recordIdxs st)
    (hp : (nodeAt st i).pointer ≠ [])
    (huniq : ∀ j ∈ recordIdxs st, (nodeAt st j).pointer = (nodeAt st i).pointer → j = i) :
    elemDictFind st ((nodeAt st i).pointer) = some i ∧
    (∀ q : List Char, (∀ j ∈ recordIdxs st, (nodeAt st j).pointer ≠ q) →
      elemDictFind st q = none) := by
  constructor
  · rw [elemDictFind, if_neg hp]
    set l := (recordIdxs st).filter
      (fun j => (nodeAt st j).pointer == (nodeAt st i).pointer) with hl
    have hmem : i ∈ l := by
      rw [hl]
      exact List.mem_filter.mpr ⟨hi, by simp⟩
    have hlrec : ∀ x ∈ l, x = i := by
      intro x hx
      have h1 := List.mem_filter.mp (hl ▸ hx)
      apply huniq x h1.1
      simpa using h1.2
    have hlne : l ≠ [] := by
      intro h0
      rw [h0] at hmem
      simp at hmem
    rw [List.getLast?_eq_getLast l hlne, hlrec _ (List.getLast_mem hlne)]
  · intro q hq
    rw [elemDictFind]
    by_cases hq0 : q = []
    · rw [if_pos hq0]
    · rw [if_neg hq0]
      have hnil : (recordIdxs st).filter (fun j => (nodeAt st j).pointer == q) = [] := by
        rw [List.filter_eq_nil_iff]
        intro j hj
        simpa using hq j hj
      rw [hnil]
      rfl

/-- A two-line document whose second line is a NESTED record with a
pointer: 0 @I1@ INDI, then 1 @X1@ FOO. -/
def demoNestedState : PState :=
  match parseAll [⟨0, "@I1@".data, "INDI".data, []⟩,
                  ⟨1, "@X1@".data, "FOO".data, []⟩] with
  | .ok st => st
  | .error _ => initState

/-- C6 counterexample: the claim promises that every record AT ANY DEPTH
with a non-empty pointer is indexed, but element_dict iterates records()
— the virtual root's direct children only.  The nested record @X1@ (a
child of the level-0 record, so at depth two of the forest, with a
non-empty pointer) resolves to nothing. -/
theorem c6_counterexample :
    (nodeAt demoNestedState 2).pointer = "@X1@".data ∧
    (nodeAt demoNestedState 2).pointer ≠ [] ∧
    2 ∈ (nodeAt demoNestedState 1).children ∧
    1 ∈ recordIdxs demoNestedState ∧
    elemDictFind demoNestedState "@X1@".data = none := by
  refine ⟨?_, ?_, ?_, ?_, ?_⟩ <;> decide

/-- Two level-0 records with distinct pointers: 0 @I1@ INDI and
0 @F1@ FAM, parsed into arena indices 1 and 2. -/
def demoTop : PState :=
  match parseAll [⟨0, "@I1@".data, "INDI".data, []⟩,
                  ⟨0, "@F1@".data, "FAM".data, []⟩] with
  | .ok st => st
  | .error _ => initState

/-- Witness for c6_pointer_index: "@I1@" resolves to the INDI record and
undeclared pointers resolve to nothing. -/
theorem c6_pointer_index_witness :
    elemDictFind demoTop ((nodeAt demoTop 1).pointer) = some 1 ∧
    (∀ q : List Char, (∀ j ∈ recordIdxs demoTop, (nodeAt demoTop j).pointer ≠ q) →
      elemDictFind demoTop q = none) :=
  c6_pointer_index demoTop 1 (by decide) (by decide) (by decide)

/-- C10: an unrecognized mem_type (one outside PARENTS, HUSB, WIFE, CHIL)
passed to get_family_members silently falls back to the default filter,
returning exactly what mem_type "ALL" returns: every resolvable
HUSB/WIFE/CHIL member. -/
theorem c10_unrecognized_mem_type (st : PState) (f : Nat) (mtype : List Char)
    (hfam : (nodeAt st f).tag = "FAM".data)
    (h1 : mtype ≠ "PARENTS".data) (h2 : mtype ≠ "HUSB".data)
    (h3 : mtype ≠ "WIFE".data) (h4 : mtype ≠ "CHIL".data) :
    getFamilyMembers st f mtype = getFamilyMembers st f "ALL".data := by
  have hpred : ∀ tg, gfmPred mtype tg = gfmPred "ALL".data tg := by
    intro tg
    rw [gfmPred, gfmPred]
    rw [if_neg (by simp [h1]), if_neg (by simp [h2]), if_neg (by simp [h3]),
      if_neg (by simp [h4])]
    rw [if_neg (by decide), if_neg (by decide), if_neg (by decide),
      if_neg (by decide)]
  have hg : gfmRaw st f mtype = gfmRaw st f "ALL".data := by
    rw [gfmRaw, gfmRaw]
    apply List.filterMap_congr
    intro c _
    rw [hpred]
  rw [getFamilyMembers, getFamilyMembers, hg]

/-- Witness for c10_unrecognized_mem_type at the FAM record of demoTop
with mem_type "XYZ". -/
theorem c10_unrecognized_mem_type_witness :
    getFamilyMembers demoTop 2 "XYZ".data = getFamilyMembers demoTop 2 "ALL".data :=
  c10_unrecognized_mem_type demoTop 2 "XYZ".data (by decide) (by decide) (by decide)
    (by decide) (by decide)

/- ### C7: natural-parent role selection -/

theorem flatten_map_nil {α β : Type} (p : α → Bool) (h : α → List β) (l : List α)
    (hf : ∀ y ∈ l, p y = false) :
    (l.map (fun y => if p y then h y else [])).flatten = [] := by
  induction l with
  | nil => rfl
  | cons a as ih =>
    rw [List.map_cons, List.flatten_cons, hf a (List.mem_cons_self _ _)]
    rw [if_neg (by simp)]
    rw [List.nil_append]
    exact ih (fun y hy => hf y (List.mem_cons_of_mem _ hy))

theorem flatten_map_single {α β : Type} (p : α → Bool) (h : α → List β) (l : List α)
    (x : α) (hf : l.filter p = [x]) :
    (l.map (fun y => if p y then h y else [])).flatten = h x := by
  induction l with
  | nil => simp at hf
  | cons a as ih =>
    by_cases hp : p a = true
    · rw [List.filter_cons_of_pos hp] at hf
      have ha : a = x := by
        have := List.cons.injEq a (as.filter p) x [] ▸ hf
        exact (List.cons.inj hf).1
      have htl : as.filter p = [] := (List.cons.inj hf).2
      subst ha
      rw [List.map_cons, List.flatten_cons, if_pos hp]
      rw [flatten_map_nil p h as (fun y hy => by
        have := List.filter_eq_nil_iff.mp htl y hy
        simpa using this)]
      rw [List.append_nil]
    · rw [List.filter_cons_of_neg hp] at hf
      rw [List.map_cons, List.flatten_cons, if_neg hp, List.nil_append]
      exact ih hf

/-- C7: for an individual whose single FAMC family contains exactly one
CHIL entry matching the individual's own pointer, and that entry carries
exactly one nested child valued "Natural", get_parents(individual, "NAT")
returns exactly the WIFE-role members of that family when the marker is
tagged _MREL and exactly the HUSB-role members when it is tagged _FREL:
the role is fixed by the marker tag. -/
theorem c7_natural_parents (st : PState) (i f m c0 : Nat)
    (hInd : (nodeAt st i).tag = "INDI".data)
    (hfam : familiesOf st i "FAMC".data = [f])
    (hmem : (nodeAt st f).children.filter
        (fun m2 => (nodeAt st m2).tag == "CHIL".data
          && (nodeAt st m2).value == (nodeAt st i).pointer) = [m])
    (hmark : (nodeAt st m).children.filter
        (fun c => (nodeAt st c).value == "Natural".data) = [c0]) :
    ((nodeAt st c0).tag = "_MREL".data →
      getParents st i "NAT".data = .ok (gfmRaw st f "WIFE".data)) ∧
    ((nodeAt st c0).tag = "_FREL".data →
      getParents st i "NAT".data = .ok (gfmRaw st f "HUSB".data)) := by
  have hmarkers : ((nodeAt st m).children.map (natMarkerContrib st f)).flatten
      = (if (nodeAt st c0).tag == "_MREL".data then gfmRaw st f "WIFE".data
         else if (nodeAt st c0).tag == "_FREL".data then gfmRaw st f "HUSB".data
         else []) := by
    have h0 := flatten_map_single
      (fun c => (nodeAt st c).value == "Natural".data)
      (fun c => if (nodeAt st c).tag == "_MREL".data then gfmRaw st f "WIFE".data
        else if (nodeAt st c).tag == "_FREL".data then gfmRaw st f "HUSB".data
        else [])
      (nodeAt st m).children c0 hmark
    exact h0
  have hfamily : natFamilyContrib st (nodeAt st i).pointer f
      = ((nodeAt st m).children.map (natMarkerContrib st f)).flatten := by
    rw [natFamilyContrib]
    have h0 := flatten_map_single
      (fun m2 => (nodeAt st m2).tag == "CHIL".data
        && (nodeAt st m2).value == (nodeAt st i).pointer)
      (fun m2 => ((nodeAt st m2).children.map (natMarkerContrib st f)).flatten)
      (nodeAt st f).children m hmem
    exact h0
  have hcore : getParents st i "NAT".data
      = .ok (if (nodeAt st c0).tag == "_MREL".data then gfmRaw st f "WIFE".data
             else if (nodeAt st c0).tag == "_FREL".data then gfmRaw st f "HUSB".data
             else []) := by
    rw [getParents, if_pos (by simp [hInd])]
    rw [getParentsRaw, if_pos (by decide), hfam]
    rw [List.map_cons, List.map_nil, List.flatten_cons, List.flatten_nil,
      List.append_nil]
    rw [hfamily, hmarkers]
  constructor
  · intro htag
    rw [hcore, htag, if_pos (by decide)]
  · intro htag
    rw [hcore, htag, if_neg (by decide), if_pos (by decide)]

/- ### C8: ancestor path search -/

/-- The parent loop of Gedcom.find_path_to_anc: try each natural parent in
order and return the first successful recursive result; a raised error
propagates immediately.  Returned paths are always non-empty, so Python's
truthiness test on the potential path is the Option some/none
distinction. -/
def tryPaths (f : Nat → List Nat → Except GedErr (Option (List Nat)))
    (path2 : List Nat) : List Nat → Except GedErr (Option (List Nat))
  | [] => .ok none
  | par :: rest =>
    match f par (path2 ++ [par]) with
    | .error e => .error e
    | .ok (some r) => .ok (some r)
    | .ok none => tryPaths f path2 rest

/-- Gedcom.find_path_to_anc: the literal guard (raise only when the
descendant is not an INDI while the ancestor is), path initialization on
the first call, pointer comparison against the ancestor, and the
depth-first search over natural parents.  The Python recursion is
unbounded (a pointer cycle diverges); the fuel argument makes the model
total, and the theorems quantify over every sufficiently large fuel, which
is exactly the executions in which Python terminates. -/
def findPathToAnc (st : PState) (anc : Nat) :
    Nat → Nat → List Nat → Except GedErr (Option (List Nat))
  | fuel, desc, path =>
    if !((nodeAt st desc).tag == "INDI".data)
        && ((nodeAt st anc).tag == "INDI".data) then
      .error .invalidArgument
    else
      let path2 := if path.isEmpty then [desc] else path
      if (nodeAt st (path2.getLastD 0)).pointer == (nodeAt st anc).pointer then
        .ok (some path2)
      else
        match fuel with
        | 0 => .ok none
        | fuel + 1 =>
          match getParents st desc "NAT".data with
          | .error e => .error e
          | .ok parents =>
            tryPaths (fun d pth => findPathToAnc st anc fuel d pth) path2 parents

theorem findPath_found (st : PState) (anc fuel desc : Nat) (path : List Nat)
    (hdesc : (nodeAt st desc).tag = "INDI".data)
    (hptr : (nodeAt st ((if path.isEmpty then [desc] else path).getLastD 0)).pointer
      = (nodeAt st anc).pointer) :
    findPathToAnc st anc fuel desc path
      = .ok (some (if path.isEmpty then [desc] else path)) := by
  unfold findPathToAnc
  rw [if_neg (by simp [hdesc])]
  dsimp only
  rw [if_pos (by simpa using hptr)]

theorem findPath_zero (st : PState) (anc desc : Nat) (path : List Nat)
    (hdesc : (nodeAt st desc).tag = "INDI".data)
    (hptr : (nodeAt st ((if path.isEmpty then [desc] else path).getLastD 0)).pointer
      ≠ (nodeAt st anc).pointer) :
    findPathToAnc st anc 0 desc path = .ok none := by
  unfold findPathToAnc
  rw [if_neg (by simp [hdesc])]
  dsimp only
  rw [if_neg (by simpa using hptr)]

theorem findPath_succ (st : PState) (anc fuel desc : Nat) (path : List Nat)
    (hdesc : (nodeAt st desc).tag = "INDI".data)
    (hptr : (nodeAt st ((if path.isEmpty then [desc] else path).getLastD 0)).pointer
      ≠ (nodeAt st anc).pointer) :
    findPathToAnc st anc (fuel + 1) desc path
      = tryPaths (fun d pth => findPathToAnc st anc fuel d pth)
          (if path.isEmpty then [desc] else path)
          (getParentsRaw st desc "NAT".data) := by
  conv_lhs => unfold findPathToAnc
  rw [if_neg (by simp [hdesc])]
  dsimp only
  rw [if_neg (by simpa using hptr)]
  rw [getParents, if_pos (by simp [hdesc])]

theorem tryPaths_cons (f : Nat → List Nat → Except GedErr (Option (List Nat)))
    (path2 : List Nat) (par : Nat) (rest : List Nat) :
    tryPaths f path2 (par :: rest)
      = match f par (path2 ++ [par]) with
        | .error e => .error e
        | .ok (some r) => .ok (some r)
        | .ok none => tryPaths f path2 rest := rfl

/-- C8: for a three-generation natural-parent chain grandchild g, parent
p, grandparent gp with no cycles (gp has no natural parents; all pointers
distinct from gp's), find_path_to_anc(g, gp) terminates — the result is
the same for every recursion budget of at least two — and returns exactly
the path [g, p, gp]; and for a target t whose pointer none of the chain
carries, the exhaustive search under natural parents returns the
not-found signal at every budget. -/
theorem c8_find_path (st : PState) (g p gp t : Nat)
    (hg : (nodeAt st g).tag = "INDI".data)
    (hp : (nodeAt st p).tag = "INDI".data)
    (hgp : (nodeAt st gp).tag = "INDI".data)
    (h1 : getParentsRaw st g "NAT".data = [p])
    (h2 : getParentsRaw st p "NAT".data = [gp])
    (h3 : getParentsRaw st gp "NAT".data = [])
    (hne1 : (nodeAt st g).pointer ≠ (nodeAt st gp).pointer)
    (hne2 : (nodeAt st p).pointer ≠ (nodeAt st gp).pointer)
    (ht1 : (nodeAt st g).pointer ≠ (nodeAt st t).pointer)
    (ht2 : (nodeAt st p).pointer ≠ (nodeAt st t).pointer)
    (ht3 : (nodeAt st gp).pointer ≠ (nodeAt st t).pointer) :
    (∀ fuel, findPathToAnc st gp (fuel + 2) g [] = .ok (some [g, p, gp])) ∧
    (∀ fuel, findPathToAnc st t fuel g [] = .ok none) := by
  constructor
  · intro fuel
    have e1 : findPathToAnc st gp (fuel + 1 + 1) g []
        = tryPaths (fun d pth => findPathToAnc st gp (fuel + 1) d pth) [g]
            (getParentsRaw st g "NAT".data) :=
      findPath_succ st gp (fuel + 1) g [] hg hne1
    have e3 : findPathToAnc st gp (fuel + 1) p [g, p]
        = tryPaths (fun d pth => findPathToAnc st gp fuel d pth) [g, p]
            (getParentsRaw st p "NAT".data) :=
      findPath_succ st gp fuel p [g, p] hp hne2
    have e4 : findPathToAnc st gp fuel gp [g, p, gp] = .ok (some [g, p, gp]) :=
      findPath_found st gp fuel gp [g, p, gp] hgp rfl
    show findPathToAnc st gp (fuel + 1 + 1) g [] = .ok (some [g, p, gp])
    rw [e1, h1, tryPaths_cons]
    dsimp only [List.cons_append, List.nil_append]
    rw [e3, h2, tryPaths_cons]
    dsimp only [List.cons_append, List.nil_append]
    rw [e4]
  · have key : ∀ fuel d, (d = g ∨ d = p ∨ d = gp) →
        ∀ path : List Nat, (path.isEmpty ∨ path.getLastD 0 = d) →
        findPathToAnc st t fuel d path = .ok none := by
      intro fuel
      induction fuel with
      | zero =>
        intro d hd path hpath
        have hdind : (nodeAt st d).tag = "INDI".data := by
          rcases hd with rfl | rfl | rfl
          · exact hg
          · exact hp
          · exact hgp
        have hdptr : (nodeAt st d).pointer ≠ (nodeAt st t).pointer := by
          rcases hd with rfl | rfl | rfl
          · exact ht1
          · exact ht2
          · exact ht3
        apply findPath_zero st t d path hdind
        rcases hpath with hp0 | hp0
        · rw [if_pos hp0]
          simpa using hdptr
        · by_cases hemp : path.isEmpty
          · rw [if_pos hemp]
            simpa using hdptr
          · rw [if_neg hemp, hp0]
            exact hdptr
      | succ fuel ih =>
        intro d hd path hpath
        have hdind : (nodeAt st d).tag = "INDI".data := by
          rcases hd with rfl | rfl | rfl
          · exact hg
          · exact hp
          · exact hgp
        have hdptr : (nodeAt st d).pointer ≠ (nodeAt st t).pointer := by
          rcases hd with rfl | rfl | rfl
          · exact ht1
          · exact ht2
          · exact ht3
        have hlast : (nodeAt st ((if path.isEmpty then [d] else path).getLastD 0)).pointer
            ≠ (nodeAt st t).pointer := by
          by_cases hemp : path.isEmpty
          · rw [if_pos hemp]
            exact hdptr
          · rw [if_neg hemp]
            rcases hpath with hp0 | hp0
            · exact absurd hp0 hemp
            · rw [hp0]
              exact hdptr
        rw [findPath_succ st t fuel d path hdind hlast]
        rcases hd with rfl | rfl | rfl
        · rw [h1, tryPaths_cons]
          rw [ih p (Or.inr (Or.inl rfl)) _ (Or.inr (List.getLastD_concat _ _ _))]
          rfl
        · rw [h2, tryPaths_cons]
          rw [ih gp (Or.inr (Or.inr rfl)) _ (Or.inr (List.getLastD_concat _ _ _))]
          rfl
        · rw [h3]
          rfl
    intro fuel
    exact key fuel g (Or.inl rfl) [] (Or.inl rfl)

/-- A parsed family document: @I1@ is a CHIL of @F1@ marked _MREL Natural,
@F1@ has WIFE @I2@ and HUSB @I3@.  Arena indices: 1 = @I1@, 2 = FAMC link,
3 = @F1@, 4 = CHIL entry, 5 = _MREL marker, 6 = WIFE link, 7 = HUSB link,
8 = @I2@, 9 = @I3@. -/
def demoFam : PState :=
  match parseAll [
    ⟨0, "@I1@".data, "INDI".data, []⟩,
    ⟨1, [], "FAMC".data, "@F1@".data⟩,
    ⟨0, "@F1@".data, "FAM".data, []⟩,
    ⟨1, [], "CHIL".data, "@I1@".data⟩,
    ⟨2, [], "_MREL".data, "Natural".data⟩,
    ⟨1, [], "WIFE".data, "@I2@".data⟩,
    ⟨1, [], "HUSB".data, "@I3@".data⟩,
    ⟨0, "@I2@".data, "INDI".data, []⟩,
    ⟨0, "@I3@".data, "INDI".data, []⟩] with
  | .ok st => st
  | .error _ => initState

/-- Witness for c7_natural_parents on demoFam (the _MREL marker selects
the WIFE role). -/
theorem c7_natural_parents_witness :
    ((nodeAt demoFam 5).tag = "_MREL".data →
      getParents demoFam 1 "NAT".data = .ok (gfmRaw demoFam 3 "WIFE".data)) ∧
    ((nodeAt demoFam 5).tag = "_FREL".data →
      getParents demoFam 1 "NAT".data = .ok (gfmRaw demoFam 3 "HUSB".data)) :=
  c7_natural_parents demoFam 1 3 4 5 (by decide) (by decide) (by decide) (by decide)

/-- A parsed three-generation chain: @I1@ natural child of @I2@ in @F1@,
@I2@ natural child of @I3@ in @F2@, plus an unrelated @I9@.  Arena
indices: 1 = @I1@, 7 = @I2@, 13 = @I3@, 14 = @I9@. -/
def demoChain : PState :=
  match parseAll [
    ⟨0, "@I1@".data, "INDI".data, []⟩,
    ⟨1, [], "FAMC".data, "@F1@".data⟩,
    ⟨0, "@F1@".data, "FAM".data, []⟩,
    ⟨1, [], "CHIL".data, "@I1@".data⟩,
    ⟨2, [], "_MREL".data, "Natural".data⟩,
    ⟨1, [], "WIFE".data, "@I2@".data⟩,
    ⟨0, "@I2@".data, "INDI".data, []⟩,
    ⟨1, [], "FAMC".data, "@F2@".data⟩,
    ⟨0, "@F2@".data, "FAM".data, []⟩,
    ⟨1, [], "CHIL".data, "@I2@".data⟩,
    ⟨2, [], "_MREL".data, "Natural".data⟩,
    ⟨1, [], "WIFE".data, "@I3@".data⟩,
    ⟨0, "@I3@".data, "INDI".data, []⟩,
    ⟨0, "@I9@".data, "INDI".data, []⟩] with
  | .ok st => st
  | .error _ => initState

/-- Witness for c8_find_path on demoChain: the grandchild-to-grandparent
search returns [1, 7, 13] at every budget of at least two, and the search
for the unrelated @I9@ returns the not-found signal at every budget. -/
theorem c8_find_path_witness :
    (∀ fuel, findPathToAnc demoChain 13 (fuel + 2) 1 [] = .ok (some [1, 7, 13])) ∧
    (∀ fuel, findPathToAnc demoChain 14 fuel 1 [] = .ok none) :=
  c8_find_path demoChain 1 7 13 14 (by decide) (by decide) (by decide) (by decide)
    (by decide) (by decide) (by decide) (by decide) (by decide) (by decide)
    (by decide)
